import Mathlib

/-!
Verification of the CipherNote crypto and note-storage core.

This file shallowly embeds the TypeScript source of the repository:
  * `src/utils/crypto.ts`   — key derivation, AES-CBC encryption/decryption of
    note payloads, master-password set/verify over the secure store;
  * `src/utils/noteStorage.ts` — the encrypted-blob-per-note file layout plus
    the plaintext metadata index.

Modelling conventions:
  * A CryptoJS `WordArray` is a list of bytes (`List Nat`, each `< 256`);
    a JavaScript string is a `List Char` (for blob strings) or a `String`
    (for passwords); a plaintext note body is represented by its UTF-8 byte
    sequence (CryptoJS converts strings to UTF-8 bytes before encrypting and
    back after decrypting, so a JS string and its byte sequence are in
    bijection).
  * The AES-256 block permutation itself lives inside the crypto-js library,
    not in this repository; it is abstracted as a `BlockCipher` parameter.
    Everything the repository adds around it — CBC chaining, PKCS#7 padding,
    the CryptoJS unpad that trusts the last byte without validation, the
    hex-IV/Base64-ciphertext `iv:ciphertext` blob format, and all the
    null-checks — is embedded concretely below.
  * Randomness (`ExpoCrypto.getRandomBytes`, `WordArray.random`) is lifted to
    explicit parameters, and the secure store / filesystem to explicit state.
-/

/-- A CryptoJS WordArray, viewed as its byte sequence. -/
abbrev Bytes := List Nat

/-- Every entry of the list is a byte value. -/
def ByteOk (bs : Bytes) : Prop := ∀ x ∈ bs, x < 256

instance : DecidablePred ByteOk := fun bs =>
  inferInstanceAs (Decidable (∀ x ∈ bs, x < 256))

/-- Lowercase hex digit, as produced by CryptoJS `Hex.stringify`. -/
def hexDigitChar (n : Nat) : Char :=
  if n < 10 then Char.ofNat (48 + n) else Char.ofNat (87 + n)

/-- Hex encoding of a byte sequence (`WordArray.toString()` default). -/
def hexEncode : Bytes → List Char
  | [] => []
  | b :: r => hexDigitChar (b / 16) :: hexDigitChar (b % 16) :: hexEncode r

/-- Value of a hex digit character (`Hex.parse`); non-hex characters give 0,
matching the NaN-to-zero coercion of the JavaScript bit operations. -/
def hexVal (c : Char) : Nat :=
  if 48 ≤ c.toNat ∧ c.toNat ≤ 57 then c.toNat - 48
  else if 97 ≤ c.toNat ∧ c.toNat ≤ 102 then c.toNat - 87
  else if 65 ≤ c.toNat ∧ c.toNat ≤ 70 then c.toNat - 55
  else 0

/-- Hex decoding (`CryptoJS.enc.Hex.parse`), two characters per byte. -/
def hexDecode : List Char → Bytes
  | c1 :: c2 :: rest => (hexVal c1 * 16 + hexVal c2) :: hexDecode rest
  | [c] => [hexVal c]
  | [] => []

/-- Character of the standard Base64 alphabet used by CryptoJS `enc.Base64`. -/
def b64Char (n : Nat) : Char :=
  if n < 26 then Char.ofNat (65 + n)
  else if n < 52 then Char.ofNat (97 + (n - 26))
  else if n < 62 then Char.ofNat (48 + (n - 52))
  else if n = 62 then '+'
  else '/'

/-- Index of a character in the Base64 alphabet (`Base64.parse`). -/
def b64Val (c : Char) : Nat :=
  if 65 ≤ c.toNat ∧ c.toNat ≤ 90 then c.toNat - 65
  else if 97 ≤ c.toNat ∧ c.toNat ≤ 122 then c.toNat - 97 + 26
  else if 48 ≤ c.toNat ∧ c.toNat ≤ 57 then c.toNat - 48 + 52
  else if c = '+' then 62
  else if c = '/' then 63
  else 0

/-- Base64 encoding with `=` padding (`WordArray.toString(CryptoJS.enc.Base64)`). -/
def base64Encode : Bytes → List Char
  | [] => []
  | [b1] => [b64Char (b1 / 4), b64Char (b1 % 4 * 16), '=', '=']
  | [b1, b2] => [b64Char (b1 / 4), b64Char (b1 % 4 * 16 + b2 / 16), b64Char (b2 % 16 * 4), '=']
  | b1 :: b2 :: b3 :: rest =>
    b64Char (b1 / 4) :: b64Char (b1 % 4 * 16 + b2 / 16) ::
    b64Char (b2 % 16 * 4 + b3 / 64) :: b64Char (b3 % 64) :: base64Encode rest

/-- Base64 decoding (`CryptoJS.enc.Base64.parse`), processing four characters
at a time and honouring trailing `=` padding. -/
def base64Decode : List Char → Bytes
  | c1 :: c2 :: c3 :: c4 :: rest =>
    if c3 = '=' then [b64Val c1 * 4 + b64Val c2 / 16]
    else if c4 = '=' then
      [b64Val c1 * 4 + b64Val c2 / 16, b64Val c2 % 16 * 16 + b64Val c3 / 4]
    else
      (b64Val c1 * 4 + b64Val c2 / 16) :: (b64Val c2 % 16 * 16 + b64Val c3 / 4) ::
      (b64Val c3 % 4 * 64 + b64Val c4) :: base64Decode rest
  | _ => []

/-- Pointwise XOR of two byte sequences (the CryptoJS `xorBlock`). -/
def xorBytes (a b : Bytes) : Bytes := List.zipWith Nat.xor a b

/-- The AES-256 block permutation supplied by crypto-js, abstracted: `enc k`
and `dec k` map a 16-byte block to a 16-byte block. -/
structure BlockCipher where
  enc : Bytes → Bytes → Bytes
  dec : Bytes → Bytes → Bytes

/-- Functional correctness of a block cipher: on 16-byte blocks, decryption
under the same key inverts encryption, and encryption stays within 16-byte
blocks. AES-256 satisfies this. -/
def BlockCipher.Sound (C : BlockCipher) : Prop :=
  ∀ k b, b.length = 16 → ByteOk b →
    C.dec k (C.enc k b) = b ∧ (C.enc k b).length = 16 ∧ ByteOk (C.enc k b)

/-- PKCS#7 padding (`CryptoJS.pad.Pkcs7.pad` with a 128-bit block). -/
def pkcs7pad (bs : Bytes) : Bytes :=
  bs ++ List.replicate (16 - bs.length % 16) (16 - bs.length % 16)

/-- CBC-mode encryption over full 16-byte blocks (`CryptoJS.mode.CBC`
encryptor), with a structural fuel so the definition evaluates in the kernel;
one fuel unit is spent per 16-byte block, so any fuel at least the byte length
is enough. Each block is XORed with the previous ciphertext block (the IV for
the first block) before the block cipher is applied. -/
def cbcEncAux (C : BlockCipher) (k : Bytes) : Nat → Bytes → Bytes → Bytes
  | 0, _, _ => []
  | fuel + 1, prev, pt =>
    if pt = [] then []
    else
      C.enc k (xorBytes (pt.take 16) prev) ++
        cbcEncAux C k fuel (C.enc k (xorBytes (pt.take 16) prev)) (pt.drop 16)

/-- CBC-mode encryption; the fuel is instantiated with the input length. -/
def cbcEnc (C : BlockCipher) (k prev pt : Bytes) : Bytes :=
  cbcEncAux C k pt.length prev pt

/-- CBC-mode decryption (`CryptoJS.mode.CBC` decryptor), fuelled like
`cbcEncAux`. -/
def cbcDecAux (C : BlockCipher) (k : Bytes) : Nat → Bytes → Bytes → Bytes
  | 0, _, _ => []
  | fuel + 1, prev, ct =>
    if ct = [] then []
    else xorBytes (C.dec k (ct.take 16)) prev ++ cbcDecAux C k fuel (ct.take 16) (ct.drop 16)

/-- CBC-mode decryption; the fuel is instantiated with the input length. -/
def cbcDec (C : BlockCipher) (k prev ct : Bytes) : Bytes :=
  cbcDecAux C k ct.length prev ct

/-- CryptoJS zero-extends (via `undefined ^ x = x`) or truncates the parsed IV
to the 16-byte block size when chaining. -/
def ivTo16 (bs : Bytes) : Bytes := (bs ++ List.replicate 16 0).take 16

/-- A UTF-8 continuation byte. -/
def utf8ContByte (b : Nat) : Bool := 128 ≤ b && b < 192

/-- Strict UTF-8 validity of a byte sequence, as enforced by the
`decodeURIComponent(escape(..))` conversion in CryptoJS `Utf8.stringify`:
the conversion throws (and `decryptData` returns null) exactly on invalid
sequences. -/
def utf8Valid : Bytes → Bool
  | [] => true
  | b :: rest =>
    if b < 128 then utf8Valid rest
    else if b < 194 then false
    else if b < 224 then
      match rest with
      | c1 :: r => utf8ContByte c1 && utf8Valid r
      | [] => false
    else if b < 240 then
      match rest with
      | c1 :: c2 :: r =>
        (if b = 224 then 160 ≤ c1 && c1 < 192
         else if b = 237 then 128 ≤ c1 && c1 < 160
         else utf8ContByte c1) && utf8ContByte c2 && utf8Valid r
      | _ => false
    else if b < 245 then
      match rest with
      | c1 :: c2 :: c3 :: r =>
        (if b = 240 then 144 ≤ c1 && c1 < 192
         else if b = 244 then 128 ≤ c1 && c1 < 144
         else utf8ContByte c1) && utf8ContByte c2 && utf8ContByte c3 && utf8Valid r
      | _ => false
    else false

/-- The JavaScript `encryptedText.split(':')` on a character list. -/
def splitOnColon : List Char → List (List Char)
  | [] => [[]]
  | c :: rest =>
    if c = ':' then [] :: splitOnColon rest
    else
      match splitOnColon rest with
      | p :: ps => (c :: p) :: ps
      | [] => [[c]]

/-- Translation of `encryptData` (src/utils/crypto.ts): rejects empty input
(the JavaScript `!data` check — an empty string is falsy), then encrypts the
PKCS#7-padded plaintext in CBC mode under the fresh random 16-byte IV
(`ExpoCrypto.getRandomBytes(IV_SIZE)`, lifted to the `iv` parameter) and
returns the blob `hex(iv) ++ ":" ++ base64(ciphertext)`. The `!key` branch of
the source can only fire on a null/undefined key, which has no counterpart in
this embedding. -/
def encryptData (C : BlockCipher) (iv : Bytes) (data : Bytes) (key : Bytes) :
    Except String (List Char) :=
  if data = [] then .error "Encrypt data received invalid input."
  else
    let encrypted := cbcEnc C key iv (pkcs7pad data)
    .ok (hexEncode iv ++ ':' :: base64Encode encrypted)

/-- The 8 ASCII bytes of `"Salted__"`, the OpenSSL salt-header magic that
CryptoJS's default ciphertext format recognises. -/
def saltedMagic : Bytes := [83, 97, 108, 116, 101, 100, 95, 95]

/-- CryptoJS `OpenSSLFormatter.parse`, applied by `CryptoJS.AES.decrypt`
whenever it is handed a ciphertext *string*: after base64-decoding, if the
raw bytes begin with the 8-byte `Salted__` magic (`words[0]` and `words[1]`
checks), 16 bytes — the magic plus an 8-byte salt — are stripped before
decryption (the extracted salt is unused when the key is a WordArray). -/
def opensslParse (ctRaw : Bytes) : Bytes :=
  if ctRaw.take 8 = saltedMagic then ctRaw.drop 16 else ctRaw

/-- Translation of `decryptData` (src/utils/crypto.ts). The source splits the
blob on `':'` and destructures the first two parts (a missing or empty part is
falsy and yields null), hex-parses the IV, base64-parses the ciphertext (with
the OpenSSL-format parse of `opensslParse`, since the ciphertext is passed to
`CryptoJS.AES.decrypt` as a string), CBC-decrypts, lets the CryptoJS PKCS#7
unpad drop as many bytes as the (unvalidated) last byte says, null-checks an
empty or non-positive-length result, converts to UTF-8 (a conversion failure
is caught and yields null), and null-checks an empty plaintext.
`sigBytes <= 0` is rendered as `padded.length ≤ n`. -/
def decryptData (C : BlockCipher) (encryptedText : List Char) (key : Bytes) :
    Option Bytes :=
  if encryptedText = [] then none
  else
    match splitOnColon encryptedText with
    | [] => none
    | [_] => none
    | ivString :: ciphertext :: _ =>
      if ivString = [] then none
      else if ciphertext = [] then none
      else
        let iv := hexDecode ivString
        let ct := opensslParse (base64Decode ciphertext)
        let padded := cbcDec C key (ivTo16 iv) ct
        if padded = [] then none
        else
          let n := padded.getLast?.getD 0
          if padded.length ≤ n then none
          else
            let plaintext := padded.take (padded.length - n)
            if utf8Valid plaintext then
              if plaintext = [] then none else some plaintext
            else none

/-- Translation of `deriveKey` (src/utils/crypto.ts): the function performs no
input validation of its own — it calls `CryptoJS.PBKDF2(password, salt, ...)`
inside a try/catch that only rethrows. CryptoJS PBKDF2 is a total,
deterministic iterated-HMAC computation that accepts any string password
(including the empty one) and any WordArray salt, so the call never throws;
the primitive is abstracted as the `pbkdf2` parameter. -/
def deriveKey (pbkdf2 : String → Bytes → Bytes) (password : String)
    (salt : Bytes) : Except String Bytes :=
  .ok (pbkdf2 password salt)

/-- The UTF-8 bytes of `TEST_PLAIN_TEXT = "CipherNoteTest"` (src/utils/crypto.ts). -/
def TEST_PLAIN_TEXT : Bytes := [67, 105, 112, 104, 101, 114, 78, 111, 116, 101, 84, 101, 115, 116]

/-- The two expo-secure-store slots used by src/utils/crypto.ts:
`ciphernote_salt` holds the Base64 string of the PBKDF2 salt and
`ciphernote_test_data` holds the encrypted verification blob. -/
structure Store where
  salt : Option (List Char)
  testData : Option (List Char)
deriving DecidableEq

/-- Errors thrown by `setMasterPassword`, one constructor per `throw` site. -/
inductive AuthError where
  | emptyPassword
  | storeSaltFailed
  | deriveKeyFailed
  | storeTestFailed
deriving DecidableEq

/-- Environment of a `setMasterPassword`/`verifyMasterPassword` call: the
PBKDF2 primitive, the block cipher, the outputs of the two random draws
(`generateSalt` and the probe-encryption IV), and fault-injection flags for
the two secure-store writes. -/
structure AuthEnv where
  kdf : String → Bytes → Bytes
  cipher : BlockCipher
  salt : Bytes
  iv : Bytes
  saltWriteFails : Bool
  testWriteFails : Bool

/-- Translation of `hasMasterPassword` (src/utils/crypto.ts): true iff the
salt slot is present. -/
def hasMasterPassword (st : Store) : Bool := st.salt.isSome

/-- Translation of `setMasterPassword` (src/utils/crypto.ts), in explicit
state-passing style: reject an empty password; `generateSalt`; `storeSalt`
(a failing secure-store write throws with the store unchanged); `deriveKey`;
reject an empty derived key; encrypt `TEST_PLAIN_TEXT` and store the blob —
a failure in that last try-block throws `storeTestFailed` with the salt
already persisted, because the source performs no rollback. -/
def setMasterPassword (e : AuthEnv) (password : String) (st : Store) :
    Except AuthError Bytes × Store :=
  if password = "" then (.error .emptyPassword, st)
  else if e.saltWriteFails then (.error .storeSaltFailed, st)
  else
    let st1 : Store := { st with salt := some (base64Encode e.salt) }
    let derivedKey := e.kdf password e.salt
    if derivedKey = [] then (.error .deriveKeyFailed, st1)
    else
      match encryptData e.cipher e.iv TEST_PLAIN_TEXT derivedKey with
      | .error _ => (.error .storeTestFailed, st1)
      | .ok encryptedTest =>
        if e.testWriteFails then (.error .storeTestFailed, st1)
        else (.ok derivedKey, { st1 with testData := some encryptedTest })

/-- Translation of `verifyMasterPassword` (src/utils/crypto.ts): null on an
empty password, on a missing salt, or on missing test data; otherwise derive
the key from the stored salt, decrypt the stored test blob, and return the key
exactly when the result equals `TEST_PLAIN_TEXT`. -/
def verifyMasterPassword (e : AuthEnv) (password : String) (st : Store) :
    Option Bytes :=
  if password = "" then none
  else
    match st.salt with
    | none => none
    | some saltB64 =>
      let derivedKey := e.kdf password (base64Decode saltB64)
      match st.testData with
      | none => none
      | some storedTest =>
        if decryptData e.cipher storedTest derivedKey = some TEST_PLAIN_TEXT then
          some derivedKey
        else none

/-- Structure of one entry of the plaintext metadata index
(src/utils/noteStorage.ts, `StoredNoteMetadata`). -/
structure StoredNoteMetadata where
  id : String
  timestamp : Int
deriving DecidableEq

/-- The note directory: one `<id>.encrypted` blob file per note, plus the
`metadata.json` index, which is either absent (`none`), present but failing
`JSON.parse` (`some none`), or a parsed entry list (`some (some l)`). -/
structure FileSystem where
  files : List (String × List Char)
  index : Option (Option (List StoredNoteMetadata))
deriving DecidableEq

/-- Descending-timestamp order used by `metadata.sort((a, b) => b.timestamp - a.timestamp)`. -/
def tsDesc (a b : StoredNoteMetadata) : Prop := b.timestamp ≤ a.timestamp

instance : DecidableRel tsDesc := fun a b =>
  inferInstanceAs (Decidable (b.timestamp ≤ a.timestamp))

instance : IsTotal StoredNoteMetadata tsDesc :=
  ⟨fun a b => le_total b.timestamp a.timestamp⟩

instance : IsTrans StoredNoteMetadata tsDesc :=
  ⟨fun _ _ _ h1 h2 => le_trans h2 h1⟩

/-- The in-place comparator sort of `getAllNoteMetadata`, modelled as a
sorting function for the same order. -/
def sortByTimestampDesc (l : List StoredNoteMetadata) : List StoredNoteMetadata :=
  List.insertionSort tsDesc l

/-- Translation of `getAllNoteMetadata` (src/utils/noteStorage.ts): read and
parse `metadata.json` and return it sorted most-recent-first; a missing or
unparseable file is caught and yields the empty list. No key parameter. -/
def getAllNoteMetadata (fs : FileSystem) : List StoredNoteMetadata :=
  match fs.index with
  | some (some metadata) => sortByTimestampDesc metadata
  | _ => []

/-- Translation of `deleteNote` (src/utils/noteStorage.ts): delete the blob
file if it exists (a filter covers both the present and the silently-skipped
absent case), read the index (a missing or unparseable file is ignored and
treated as the empty list), filter out the entries with the given id, and
rewrite the whole index file with the result. -/
def deleteNote (id : String) (fs : FileSystem) : FileSystem :=
  let metadata :=
    match fs.index with
    | some (some m) => m
    | _ => []
  let updatedMetadata := metadata.filter (fun m => m.id ≠ id)
  { files := fs.files.filter (fun f => f.1 ≠ id),
    index := some (some updatedMetadata) }

/-- Translation of `loadNoteContent` (src/utils/noteStorage.ts): null if no
`<id>.encrypted` file exists, otherwise `decryptData` of its contents (which
is itself null on any decryption failure). The `!encryptionKey` throw of the
source only fires on a null/undefined key, which has no counterpart here. -/
def loadNoteContent (C : BlockCipher) (id : String) (encryptionKey : Bytes)
    (fs : FileSystem) : Option Bytes :=
  match fs.files.lookup id with
  | none => none
  | some encryptedContent => decryptData C encryptedContent encryptionKey

/-- A concrete sound block cipher used to instantiate the abstract AES
parameter in witnesses and counterexamples: XOR of every byte with the first
key byte, a self-inverse 16-byte block permutation. -/
def xorCipherFn (k b : Bytes) : Bytes := b.map (fun x => x ^^^ k.headD 0 % 256)

/-- The XOR block cipher bundled as a `BlockCipher`. -/
def xorBC : BlockCipher := ⟨xorCipherFn, xorCipherFn⟩

/-- A concrete total deterministic stand-in for the CryptoJS PBKDF2 primitive,
used to instantiate the abstract `kdf` parameter in witnesses and
counterexamples. -/
def toyKdf (password : String) (salt : Bytes) : Bytes :=
  (password.data.map Char.toNat ++ salt).map (fun b => b % 256)

lemma div16_reassemble (A B : Nat) (hB : B < 16) : (A * 16 + B) / 16 = A := by omega

lemma mod16_reassemble (A B : Nat) (hB : B < 16) : (A * 16 + B) % 16 = B := by omega

lemma div4_reassemble (A B : Nat) (hB : B < 4) : (A * 4 + B) / 4 = A := by omega

lemma mod4_reassemble (A B : Nat) (hB : B < 4) : (A * 4 + B) % 4 = B := by omega

lemma mul_div_self16 (A : Nat) : A * 16 / 16 = A := by omega

lemma mul_div_self4 (A : Nat) : A * 4 / 4 = A := by omega

lemma hexVal_hexDigitChar : ∀ n < 16, hexVal (hexDigitChar n) = n := by decide

lemma hexDigitChar_ne_colon : ∀ n < 16, hexDigitChar n ≠ ':' := by decide

lemma b64Val_b64Char : ∀ n < 64, b64Val (b64Char n) = n := by decide

lemma b64Char_ne_pad : ∀ n < 64, b64Char n ≠ '=' := by decide

lemma b64Char_ne_colon : ∀ n < 64, b64Char n ≠ ':' := by decide

lemma byteOk_cons {b : Nat} {r : Bytes} (h : ByteOk (b :: r)) : b < 256 ∧ ByteOk r :=
  ⟨h b (List.mem_cons_self b r), fun x hx => h x (List.mem_cons_of_mem _ hx)⟩

lemma hexDecode_hexEncode (bs : Bytes) (h : ByteOk bs) : hexDecode (hexEncode bs) = bs := by
  induction bs with
  | nil => rfl
  | cons b r ih =>
    obtain ⟨hb, hr⟩ := byteOk_cons h
    have h1 : b / 16 < 16 := by omega
    have h2 : b % 16 < 16 := by omega
    simp only [hexEncode, hexDecode, hexVal_hexDigitChar _ h1, hexVal_hexDigitChar _ h2,
      ih hr, List.cons.injEq, and_true]
    omega

lemma colon_not_mem_hexEncode (bs : Bytes) (h : ByteOk bs) : ':' ∉ hexEncode bs := by
  induction bs with
  | nil => simp [hexEncode]
  | cons b r ih =>
    obtain ⟨hb, hr⟩ := byteOk_cons h
    have h1 : b / 16 < 16 := by omega
    have h2 : b % 16 < 16 := by omega
    simp only [hexEncode, List.mem_cons, not_or]
    exact ⟨fun e => hexDigitChar_ne_colon _ h1 e.symm,
      fun e => hexDigitChar_ne_colon _ h2 e.symm, ih hr⟩

lemma hexEncode_ne_nil {bs : Bytes} (h : bs ≠ []) : hexEncode bs ≠ [] := by
  cases bs with
  | nil => exact absurd rfl h
  | cons b r => simp [hexEncode]

lemma base64Decode_base64Encode : ∀ bs : Bytes, ByteOk bs → base64Decode (base64Encode bs) = bs
  | [], _ => rfl
  | [b1], h => by
    have hb1 : b1 < 256 := (byteOk_cons h).1
    simp only [base64Encode, base64Decode, eq_self_iff_true, if_true,
      b64Val_b64Char (b1 / 4) (by omega), b64Val_b64Char (b1 % 4 * 16) (by omega),
      List.cons.injEq, and_true]
    rw [mul_div_self16]
    omega
  | [b1, b2], h => by
    have hb1 : b1 < 256 := (byteOk_cons h).1
    have hb2 : b2 < 256 := (byteOk_cons (byteOk_cons h).2).1
    have hne : b64Char (b2 % 16 * 4) ≠ '=' := b64Char_ne_pad _ (by omega)
    simp only [base64Encode, base64Decode, if_neg hne, eq_self_iff_true, if_true,
      b64Val_b64Char (b1 / 4) (by omega), b64Val_b64Char (b1 % 4 * 16 + b2 / 16) (by omega),
      b64Val_b64Char (b2 % 16 * 4) (by omega), List.cons.injEq, and_true]
    constructor
    · rw [div16_reassemble (b1 % 4) (b2 / 16) (by omega)]
      omega
    · rw [mod16_reassemble (b1 % 4) (b2 / 16) (by omega), mul_div_self4]
      omega
  | b1 :: b2 :: b3 :: rest, h => by
    have hb1 : b1 < 256 := (byteOk_cons h).1
    have hb2 : b2 < 256 := (byteOk_cons (byteOk_cons h).2).1
    have hb3 : b3 < 256 := (byteOk_cons (byteOk_cons (byteOk_cons h).2).2).1
    have hrest : ByteOk rest := (byteOk_cons (byteOk_cons (byteOk_cons h).2).2).2
    have hne3 : b64Char (b2 % 16 * 4 + b3 / 64) ≠ '=' := b64Char_ne_pad _ (by omega)
    have hne4 : b64Char (b3 % 64) ≠ '=' := b64Char_ne_pad _ (by omega)
    simp only [base64Encode, base64Decode, if_neg hne3, if_neg hne4,
      b64Val_b64Char (b1 / 4) (by omega), b64Val_b64Char (b1 % 4 * 16 + b2 / 16) (by omega),
      b64Val_b64Char (b2 % 16 * 4 + b3 / 64) (by omega), b64Val_b64Char (b3 % 64) (by omega),
      base64Decode_base64Encode rest hrest, List.cons.injEq, and_true]
    refine ⟨?_, ?_, ?_⟩
    · rw [div16_reassemble (b1 % 4) (b2 / 16) (by omega)]
      omega
    · rw [mod16_reassemble (b1 % 4) (b2 / 16) (by omega),
        div4_reassemble (b2 % 16) (b3 / 64) (by omega)]
      omega
    · rw [mod4_reassemble (b2 % 16) (b3 / 64) (by omega)]
      omega

lemma colon_not_mem_base64Encode : ∀ bs : Bytes, ByteOk bs → ':' ∉ base64Encode bs
  | [], _ => by simp [base64Encode]
  | [b1], h => by
    have hb1 : b1 < 256 := (byteOk_cons h).1
    simp only [base64Encode, List.mem_cons, not_or]
    refine ⟨fun e => b64Char_ne_colon _ (by omega) e.symm,
      fun e => b64Char_ne_colon _ (by omega) e.symm, by decide, by decide, by simp⟩
  | [b1, b2], h => by
    have hb1 : b1 < 256 := (byteOk_cons h).1
    have hb2 : b2 < 256 := (byteOk_cons (byteOk_cons h).2).1
    simp only [base64Encode, List.mem_cons, not_or]
    refine ⟨fun e => b64Char_ne_colon _ (by omega) e.symm,
      fun e => b64Char_ne_colon _ (by omega) e.symm,
      fun e => b64Char_ne_colon _ (by omega) e.symm, by decide, by simp⟩
  | b1 :: b2 :: b3 :: rest, h => by
    have hb1 : b1 < 256 := (byteOk_cons h).1
    have hb2 : b2 < 256 := (byteOk_cons (byteOk_cons h).2).1
    have hb3 : b3 < 256 := (byteOk_cons (byteOk_cons (byteOk_cons h).2).2).1
    have hrest : ByteOk rest := (byteOk_cons (byteOk_cons (byteOk_cons h).2).2).2
    simp only [base64Encode, List.mem_cons, not_or]
    refine ⟨fun e => b64Char_ne_colon _ (by omega) e.symm,
      fun e => b64Char_ne_colon _ (by omega) e.symm,
      fun e => b64Char_ne_colon _ (by omega) e.symm,
      fun e => b64Char_ne_colon _ (by omega) e.symm,
      colon_not_mem_base64Encode rest hrest⟩

lemma base64Encode_ne_nil {bs : Bytes} (h : bs ≠ []) : base64Encode bs ≠ [] := by
  match bs with
  | [] => exact absurd rfl h
  | [b1] => simp [base64Encode]
  | [b1, b2] => simp [base64Encode]
  | b1 :: b2 :: b3 :: rest => simp [base64Encode]

lemma xorBytes_length (a b : Bytes) : (xorBytes a b).length = min a.length b.length :=
  List.length_zipWith ..

lemma xorBytes_cancel : ∀ a b : Bytes, a.length = b.length → xorBytes (xorBytes a b) b = a
  | [], [], _ => rfl
  | [], _ :: _, h => by simp at h
  | _ :: _, [], h => by simp at h
  | x :: xs, y :: ys, h => by
    simp only [List.length_cons, Nat.add_right_cancel_iff] at h
    show Nat.xor (Nat.xor x y) y :: xorBytes (xorBytes xs ys) ys = x :: xs
    have hx : Nat.xor (Nat.xor x y) y = x := Nat.xor_cancel_right y x
    rw [hx, xorBytes_cancel xs ys h]

lemma xorBytes_byteOk : ∀ a b : Bytes, ByteOk a → ByteOk b → ByteOk (xorBytes a b)
  | [], _, _, _ => by intro x hx; simp [xorBytes] at hx
  | _ :: _, [], _, _ => by intro x hx; simp [xorBytes] at hx
  | x :: xs, y :: ys, ha, hb => by
    intro z hz
    rcases List.mem_cons.mp hz with rfl | hz2
    · have hx : x < 2 ^ 8 := by
        have h1 := (byteOk_cons ha).1
        norm_num
        omega
      have hy : y < 2 ^ 8 := by
        have h1 := (byteOk_cons hb).1
        norm_num
        omega
      have hlt : Nat.xor x y < 2 ^ 8 := Nat.xor_lt_two_pow hx hy
      norm_num at hlt
      exact hlt
    · exact xorBytes_byteOk xs ys (byteOk_cons ha).2 (byteOk_cons hb).2 z hz2

lemma xorCipherFn_involutive (k bs : Bytes) : xorCipherFn k (xorCipherFn k bs) = bs := by
  induction bs with
  | nil => rfl
  | cons x xs ih =>
    show ((x ^^^ k.headD 0 % 256) ^^^ k.headD 0 % 256) :: xorCipherFn k (xorCipherFn k xs) = x :: xs
    rw [Nat.xor_cancel_right, ih]

lemma xorCipherFn_byteOk (k bs : Bytes) (h : ByteOk bs) : ByteOk (xorCipherFn k bs) := by
  intro z hz
  simp only [xorCipherFn, List.mem_map] at hz
  obtain ⟨y, hy, rfl⟩ := hz
  have hy2 : y < 2 ^ 8 := by
    have h1 := h y hy
    norm_num
    omega
  have hk2 : k.headD 0 % 256 < 2 ^ 8 := by
    norm_num
    omega
  have hlt : y ^^^ k.headD 0 % 256 < 2 ^ 8 := Nat.xor_lt_two_pow hy2 hk2
  have h256 : (2 : Nat) ^ 8 = 256 := by norm_num
  rw [h256] at hlt
  exact hlt

lemma xorBC_sound : xorBC.Sound := by
  intro k b hlen hok
  refine ⟨xorCipherFn_involutive k b, ?_, xorCipherFn_byteOk k b hok⟩
  simp [xorBC, xorCipherFn, hlen]

lemma getLast?_replicate (n : Nat) (a : Nat) (h : n ≠ 0) :
    (List.replicate n a).getLast? = some a := by
  cases n with
  | zero => exact absurd rfl h
  | succ m =>
    rw [List.replicate_succ']
    exact List.getLast?_concat _

lemma pkcs7pad_length (bs : Bytes) :
    (pkcs7pad bs).length = bs.length + (16 - bs.length % 16) := by
  simp [pkcs7pad]

lemma pkcs7pad_mod (bs : Bytes) : (pkcs7pad bs).length % 16 = 0 := by
  rw [pkcs7pad_length]
  omega

lemma pkcs7pad_byteOk (bs : Bytes) (h : ByteOk bs) : ByteOk (pkcs7pad bs) := by
  intro x hx
  simp only [pkcs7pad, List.mem_append, List.mem_replicate] at hx
  rcases hx with hx | ⟨_, rfl⟩
  · exact h x hx
  · omega

lemma pkcs7pad_getLast (bs : Bytes) :
    (pkcs7pad bs).getLast?.getD 0 = 16 - bs.length % 16 := by
  have hk : 16 - bs.length % 16 ≠ 0 := by omega
  have hrep : (List.replicate (16 - bs.length % 16) (16 - bs.length % 16) : Bytes) ≠ [] := by
    intro he
    have hlen := congrArg List.length he
    simp only [List.length_replicate, List.length_nil] at hlen
    exact hk hlen
  rw [pkcs7pad, List.getLast?_append_of_ne_nil _ hrep, getLast?_replicate _ _ hk]
  rfl

lemma pkcs7pad_take (bs : Bytes) : (pkcs7pad bs).take bs.length = bs :=
  List.take_left' rfl

lemma pkcs7pad_ne_nil (bs : Bytes) : pkcs7pad bs ≠ [] := by
  have h := pkcs7pad_length bs
  intro he
  rw [he] at h
  simp at h
  omega

lemma cbcDecAux_nil (C : BlockCipher) (k : Bytes) (fuel : Nat) (prev : Bytes) :
    cbcDecAux C k fuel prev [] = [] := by
  cases fuel <;> simp [cbcDecAux]

lemma cbcEncAux_spec (C : BlockCipher) (hC : C.Sound) (k : Bytes) :
    ∀ (fuel : Nat) (pt prev : Bytes), pt.length ≤ fuel → pt.length % 16 = 0 → ByteOk pt →
      prev.length = 16 → ByteOk prev →
      (cbcEncAux C k fuel prev pt).length = pt.length ∧ ByteOk (cbcEncAux C k fuel prev pt) := by
  intro fuel
  induction fuel with
  | zero =>
    intro pt prev hf _ _ _ _
    have hpt : pt = [] := List.eq_nil_of_length_eq_zero (by omega)
    subst hpt
    exact ⟨rfl, by intro x hx; simp [cbcEncAux] at hx⟩
  | succ f ih =>
    intro pt prev hf hmod hok hplen hpok
    by_cases hpt : pt = []
    · subst hpt
      exact ⟨rfl, by intro x hx; simp [cbcEncAux] at hx⟩
    · have hpos : 0 < pt.length := List.length_pos.mpr hpt
      have hlen16 : 16 ≤ pt.length := by omega
      have htake : (pt.take 16).length = 16 := by
        rw [List.length_take]
        omega
      have htakeok : ByteOk (pt.take 16) := fun x hx => hok x (List.take_subset _ _ hx)
      have hxlen : (xorBytes (pt.take 16) prev).length = 16 := by
        rw [xorBytes_length, htake, hplen]
        exact min_self 16
      have hxok : ByteOk (xorBytes (pt.take 16) prev) := xorBytes_byteOk _ _ htakeok hpok
      obtain ⟨_, hclen, hcok⟩ := hC k _ hxlen hxok
      have hdrop : (pt.drop 16).length = pt.length - 16 := List.length_drop ..
      have ihres := ih (pt.drop 16) (C.enc k (xorBytes (pt.take 16) prev))
        (by rw [hdrop]; omega) (by rw [hdrop]; omega)
        (fun x hx => hok x (List.drop_subset _ _ hx)) hclen hcok
      simp only [cbcEncAux, if_neg hpt]
      constructor
      · rw [List.length_append, hclen, ihres.1, hdrop]
        omega
      · intro x hx
        rcases List.mem_append.mp hx with hx | hx
        · exact hcok x hx
        · exact ihres.2 x hx

lemma cbc_roundtrip (C : BlockCipher) (hC : C.Sound) (k : Bytes) :
    ∀ (fe fd : Nat) (pt prev : Bytes), pt.length ≤ fe → pt.length ≤ fd →
      pt.length % 16 = 0 → ByteOk pt → prev.length = 16 → ByteOk prev →
      cbcDecAux C k fd prev (cbcEncAux C k fe prev pt) = pt := by
  intro fe
  induction fe with
  | zero =>
    intro fd pt prev hfe _ _ _ _ _
    have hpt : pt = [] := List.eq_nil_of_length_eq_zero (by omega)
    subst hpt
    cases fd <;> simp [cbcEncAux, cbcDecAux]
  | succ f ih =>
    intro fd pt prev hfe hfd hmod hok hplen hpok
    by_cases hpt : pt = []
    · subst hpt
      cases fd <;> simp [cbcEncAux, cbcDecAux]
    · have hpos : 0 < pt.length := List.length_pos.mpr hpt
      have hlen16 : 16 ≤ pt.length := by omega
      have htake : (pt.take 16).length = 16 := by
        rw [List.length_take]
        omega
      have htakeok : ByteOk (pt.take 16) := fun x hx => hok x (List.take_subset _ _ hx)
      have hxlen : (xorBytes (pt.take 16) prev).length = 16 := by
        rw [xorBytes_length, htake, hplen]
        exact min_self 16
      have hxok : ByteOk (xorBytes (pt.take 16) prev) := xorBytes_byteOk _ _ htakeok hpok
      obtain ⟨hdec, hclen, hcok⟩ := hC k _ hxlen hxok
      have hdrop : (pt.drop 16).length = pt.length - 16 := List.length_drop ..
      cases fd with
      | zero => omega
      | succ fd' =>
        simp only [cbcEncAux, if_neg hpt]
        have hcne : C.enc k (xorBytes (pt.take 16) prev) ++
            cbcEncAux C k f (C.enc k (xorBytes (pt.take 16) prev)) (pt.drop 16) ≠ [] := by
          intro he
          have hl := congrArg List.length he
          rw [List.length_append, hclen] at hl
          simp at hl
        simp only [cbcDecAux, if_neg hcne]
        rw [List.take_left' hclen, List.drop_left' hclen, hdec,
          xorBytes_cancel _ _ (by rw [htake, hplen]),
          ih fd' (pt.drop 16) (C.enc k (xorBytes (pt.take 16) prev))
            (by rw [hdrop]; omega) (by rw [hdrop]; omega) (by rw [hdrop]; omega)
            (fun x hx => hok x (List.drop_subset _ _ hx)) hclen hcok]
        exact List.take_append_drop 16 pt

lemma cbcEnc_spec (C : BlockCipher) (hC : C.Sound) (k prev pt : Bytes)
    (hmod : pt.length % 16 = 0) (hok : ByteOk pt) (hplen : prev.length = 16)
    (hpok : ByteOk prev) :
    (cbcEnc C k prev pt).length = pt.length ∧ ByteOk (cbcEnc C k prev pt) :=
  cbcEncAux_spec C hC k pt.length pt prev (le_refl _) hmod hok hplen hpok

lemma cbcDec_cbcEnc (C : BlockCipher) (hC : C.Sound) (k prev pt : Bytes)
    (hmod : pt.length % 16 = 0) (hok : ByteOk pt) (hplen : prev.length = 16)
    (hpok : ByteOk prev) :
    cbcDec C k prev (cbcEnc C k prev pt) = pt := by
  have hlen := (cbcEnc_spec C hC k prev pt hmod hok hplen hpok).1
  rw [cbcDec, hlen]
  exact cbc_roundtrip C hC k pt.length pt.length pt prev (le_refl _) (le_refl _)
    hmod hok hplen hpok

lemma splitOnColon_no_colon (a : List Char) (h : ':' ∉ a) : splitOnColon a = [a] := by
  induction a with
  | nil => rfl
  | cons c r ih =>
    have hc : ¬c = ':' := fun e => h (by rw [e]; exact List.mem_cons_self _ _)
    have hr : ':' ∉ r := fun hm => h (List.mem_cons_of_mem _ hm)
    simp only [splitOnColon, if_neg hc, ih hr]

lemma splitOnColon_append (a b : List Char) (h : ':' ∉ a) :
    splitOnColon (a ++ ':' :: b) = a :: splitOnColon b := by
  induction a with
  | nil => simp [splitOnColon]
  | cons c r ih =>
    have hc : ¬c = ':' := fun e => h (by rw [e]; exact List.mem_cons_self _ _)
    have hr : ':' ∉ r := fun hm => h (List.mem_cons_of_mem _ hm)
    simp only [List.cons_append, splitOnColon, if_neg hc]
    rw [show r.append (':' :: b) = r ++ ':' :: b from rfl, ih hr]

lemma ivTo16_of_len16 {bs : Bytes} (h : bs.length = 16) : ivTo16 bs = bs :=
  List.take_left' h

lemma ne_nil_of_length_eq_16 {bs : Bytes} (h : bs.length = 16) : bs ≠ [] := by
  intro he
  rw [he] at h
  simp at h

lemma encryptData_ok (C : BlockCipher) (iv P K : Bytes) (hP : P ≠ []) :
    encryptData C iv P K =
      .ok (hexEncode iv ++ ':' :: base64Encode (cbcEnc C K iv (pkcs7pad P))) := by
  simp [encryptData, hP]

lemma opensslParse_no_magic {bs : Bytes} (h : bs.take 8 ≠ saltedMagic) :
    opensslParse bs = bs := if_neg h

lemma decryptData_encryptData (C : BlockCipher) (hC : C.Sound) (iv P K : Bytes)
    (hiv : iv.length = 16) (hivok : ByteOk iv) (hP : P ≠ []) (hPok : ByteOk P)
    (hPutf8 : utf8Valid P = true)
    (hmagic : (cbcEnc C K iv (pkcs7pad P)).take 8 ≠ saltedMagic) :
    decryptData C (hexEncode iv ++ ':' :: base64Encode (cbcEnc C K iv (pkcs7pad P))) K =
      some P := by
  have hivne : iv ≠ [] := ne_nil_of_length_eq_16 hiv
  have hpadmod := pkcs7pad_mod P
  have hpadok := pkcs7pad_byteOk P hPok
  have hpadne := pkcs7pad_ne_nil P
  obtain ⟨hctlen, hctok⟩ := cbcEnc_spec C hC K iv (pkcs7pad P) hpadmod hpadok hiv hivok
  have hctne : cbcEnc C K iv (pkcs7pad P) ≠ [] := by
    intro he
    rw [he] at hctlen
    simp only [List.length_nil] at hctlen
    exact hpadne (List.eq_nil_of_length_eq_zero hctlen.symm)
  have hhexne : hexEncode iv ≠ [] := hexEncode_ne_nil hivne
  have hb64ne : base64Encode (cbcEnc C K iv (pkcs7pad P)) ≠ [] := base64Encode_ne_nil hctne
  have hblobne : hexEncode iv ++ ':' :: base64Encode (cbcEnc C K iv (pkcs7pad P)) ≠ [] := by
    simp
  have hsplit : splitOnColon (hexEncode iv ++ ':' :: base64Encode (cbcEnc C K iv (pkcs7pad P))) =
      [hexEncode iv, base64Encode (cbcEnc C K iv (pkcs7pad P))] := by
    rw [splitOnColon_append _ _ (colon_not_mem_hexEncode iv hivok),
      splitOnColon_no_colon _ (colon_not_mem_base64Encode _ hctok)]
  rw [decryptData, if_neg hblobne, hsplit]
  simp only []
  rw [if_neg hhexne, if_neg hb64ne, hexDecode_hexEncode iv hivok,
    base64Decode_base64Encode _ hctok, opensslParse_no_magic hmagic, ivTo16_of_len16 hiv,
    cbcDec_cbcEnc C hC K iv (pkcs7pad P) hpadmod hpadok hiv hivok,
    if_neg hpadne, pkcs7pad_getLast P]
  have hppos : 0 < P.length := List.length_pos.mpr hP
  have hlen := pkcs7pad_length P
  have hcond : ¬((pkcs7pad P).length ≤ 16 - P.length % 16) := by
    rw [hlen]
    omega
  rw [if_neg hcond]
  have harith : (pkcs7pad P).length - (16 - P.length % 16) = P.length := by
    rw [hlen]
    omega
  rw [harith, pkcs7pad_take, if_pos hPutf8, if_neg hP]

lemma encrypt_then_decrypt (C : BlockCipher) (hC : C.Sound) (iv P K : Bytes)
    (hiv : iv.length = 16) (hivok : ByteOk iv) (hP : P ≠ []) (hPok : ByteOk P)
    (hPutf8 : utf8Valid P = true)
    (hmagic : (cbcEnc C K iv (pkcs7pad P)).take 8 ≠ saltedMagic) :
    (encryptData C iv P K).toOption.bind (fun b => decryptData C b K) = some P := by
  rw [encryptData_ok C iv P K hP]
  exact decryptData_encryptData C hC iv P K hiv hivok hP hPok hPutf8 hmagic

/-- C1 (amended): for every block cipher with the AES inverse property, every
16-byte IV, every key, and every nonempty plaintext (a UTF-8 byte string)
whose ciphertext does not begin with the 8-byte OpenSSL `Salted__` magic,
decrypting the blob produced by `encryptData` under the same key returns
exactly the original plaintext. (The original claim fails at the empty
plaintext, where `encryptData` throws instead of producing a blob, and on
ciphertexts that happen to start with `Salted__`, where the crypto-js
OpenSSL-format parse strips 16 bytes as a salt header and decryption returns
null.) -/
theorem C1_encrypt_decrypt_roundtrip (C : BlockCipher) (hC : C.Sound) (iv P K : Bytes)
    (hiv : iv.length = 16) (hivok : ByteOk iv) (hP : P ≠ []) (hPok : ByteOk P)
    (hPutf8 : utf8Valid P = true)
    (hmagic : (cbcEnc C K iv (pkcs7pad P)).take 8 ≠ saltedMagic) :
    (encryptData C iv P K).toOption.bind (fun b => decryptData C b K) = some P :=
  encrypt_then_decrypt C hC iv P K hiv hivok hP hPok hPutf8 hmagic

/-- Witness for C1 at a concrete cipher, IV, plaintext and key. -/
theorem C1_encrypt_decrypt_roundtrip_witness :
    xorBC.Sound ∧
    (encryptData xorBC (List.replicate 16 0) [72, 105] [7]).toOption.bind
      (fun b => decryptData xorBC b [7]) = some [72, 105] :=
  ⟨xorBC_sound,
   C1_encrypt_decrypt_roundtrip xorBC xorBC_sound (List.replicate 16 0) [72, 105] [7]
     (by decide) (by decide) (by decide) (by decide) (by decide) (by decide)⟩

/-- C1 counterexample, two failure modes of `decrypt(encrypt(P, K), K) = P`:
at the empty plaintext `encryptData` throws its invalid-input error and no
blob is produced; and at a plaintext/IV pair whose ciphertext begins with the
ASCII bytes `Salted__`, the OpenSSL-format parse strips the single 16-byte
block as a salt header, decryption sees an empty ciphertext, and the
composition returns null rather than the plaintext even under the correct
key. -/
theorem C1_counterexample :
    ((encryptData xorBC (List.replicate 16 0) [] [7]).toOption.bind
      (fun b => decryptData xorBC b [7]) = none ∧
    encryptData xorBC (List.replicate 16 0) [] [7] =
      .error "Encrypt data received invalid input.") ∧
    ((cbcEnc xorBC [0] [18, 32, 45, 53, 36, 37, 30, 30, 0, 0, 0, 0, 0, 0, 0, 0]
      (pkcs7pad (List.replicate 15 65))).take 8 = saltedMagic ∧
    (encryptData xorBC [18, 32, 45, 53, 36, 37, 30, 30, 0, 0, 0, 0, 0, 0, 0, 0]
      (List.replicate 15 65) [0]).toOption.bind
      (fun b => decryptData xorBC b [0]) = none) :=
  ⟨⟨rfl, rfl⟩, ⟨by decide, by decide⟩⟩

/-- C9: encryption of the empty plaintext throws the invalid-input error for
every cipher, IV and key — the `!data` guard puts the empty string outside the
accepted domain. -/
theorem C9_empty_string_rejected (C : BlockCipher) (iv key : Bytes) :
    encryptData C iv [] key = .error "Encrypt data received invalid input." := rfl

lemma splitOnColon_ne_nil (s : List Char) : splitOnColon s ≠ [] := by
  cases s with
  | nil => simp [splitOnColon]
  | cons c rest =>
    by_cases hc : c = ':'
    · simp [splitOnColon, hc]
    · simp only [splitOnColon, if_neg hc]
      cases hsp : splitOnColon rest with
      | nil => simp
      | cons p ps => simp

/-- C2 (amended): `decryptData` is total (returns null, never throws), returns
null on a malformed blob — one without the `':'` delimiter, one whose iv part
before the first `':'` is empty, or one whose ciphertext part is empty — and
never returns the empty plaintext as a valid result; but it performs no
authentication or padding validation, so under a mismatched key — or with a
wrong-length nonce — it can return nonempty garbled output as if valid (see
the counterexample). -/
theorem C2_graceful_failure (C : BlockCipher) (key : Bytes) (blob : List Char) :
    (':' ∉ blob → decryptData C blob key = none) ∧
    (∀ rest : List Char, decryptData C (':' :: rest) key = none) ∧
    (∀ a : List Char, ':' ∉ a → decryptData C (a ++ [':']) key = none) ∧
    decryptData C blob key ≠ some [] := by
  refine ⟨?_, ?_, ?_, ?_⟩
  · intro hb
    by_cases h0 : blob = []
    · rw [decryptData, if_pos h0]
    · rw [decryptData, if_neg h0, splitOnColon_no_colon blob hb]
  · intro rest
    rw [decryptData, if_neg (by simp),
      show splitOnColon (':' :: rest) = [] :: splitOnColon rest from by simp [splitOnColon]]
    cases hsp : splitOnColon rest with
    | nil => exact absurd hsp (splitOnColon_ne_nil rest)
    | cons p ps =>
      dsimp only []
      rw [if_pos rfl]
  · intro a ha
    rw [decryptData, if_neg (by simp),
      show a ++ [':'] = a ++ ':' :: [] from rfl, splitOnColon_append a [] ha,
      show splitOnColon [] = [[]] from rfl]
    dsimp only []
    by_cases hA : a = []
    · rw [if_pos hA]
    · rw [if_neg hA, if_pos rfl]
  · intro h
    rw [decryptData] at h
    by_cases h0 : blob = []
    · rw [if_pos h0] at h
      simp at h
    · rw [if_neg h0] at h
      cases hsp : splitOnColon blob with
      | nil => rw [hsp] at h; simp at h
      | cons p ps =>
        cases ps with
        | nil => rw [hsp] at h; simp at h
        | cons q qs =>
          rw [hsp] at h
          dsimp only [] at h
          by_cases hp : p = []
          · rw [if_pos hp] at h
            simp at h
          · rw [if_neg hp] at h
            by_cases hq : q = []
            · rw [if_pos hq] at h
              simp at h
            · rw [if_neg hq] at h
              by_cases hpad : cbcDec C key (ivTo16 (hexDecode p))
                  (opensslParse (base64Decode q)) = []
              · rw [if_pos hpad] at h
                simp at h
              · rw [if_neg hpad] at h
                by_cases hsig : (cbcDec C key (ivTo16 (hexDecode p))
                    (opensslParse (base64Decode q))).length ≤
                    (cbcDec C key (ivTo16 (hexDecode p))
                      (opensslParse (base64Decode q))).getLast?.getD 0
                · rw [if_pos hsig] at h
                  simp at h
                · rw [if_neg hsig] at h
                  by_cases hu : utf8Valid ((cbcDec C key (ivTo16 (hexDecode p))
                      (opensslParse (base64Decode q))).take
                      ((cbcDec C key (ivTo16 (hexDecode p))
                        (opensslParse (base64Decode q))).length -
                        (cbcDec C key (ivTo16 (hexDecode p))
                          (opensslParse (base64Decode q))).getLast?.getD 0)) = true
                  · rw [if_pos hu] at h
                    by_cases hpl : (cbcDec C key (ivTo16 (hexDecode p))
                        (opensslParse (base64Decode q))).take
                        ((cbcDec C key (ivTo16 (hexDecode p))
                          (opensslParse (base64Decode q))).length -
                          (cbcDec C key (ivTo16 (hexDecode p))
                            (opensslParse (base64Decode q))).getLast?.getD 0) = []
                    · rw [if_pos hpl] at h
                      simp at h
                    · rw [if_neg hpl] at h
                      exact hpl (Option.some.inj h)
                  · rw [if_neg hu] at h
                    simp at h

/-- Witness for C2: a delimiter-free blob, a blob with an empty iv part, and a
blob with an empty ciphertext part all decrypt to null, and decryption never
yields the empty plaintext. -/
theorem C2_graceful_failure_witness :
    decryptData xorBC ("deadbeef".data) [3] = none ∧
    decryptData xorBC (':' :: "deadbeef".data) [3] = none ∧
    decryptData xorBC ("deadbeef".data ++ [':']) [3] = none ∧
    decryptData xorBC ("deadbeef".data) [3] ≠ some [] :=
  ⟨(C2_graceful_failure xorBC [3] ("deadbeef".data)).1 (by decide),
   (C2_graceful_failure xorBC [3] ("deadbeef".data)).2.1 ("deadbeef".data),
   (C2_graceful_failure xorBC [3] ("deadbeef".data)).2.2.1 ("deadbeef".data) (by decide),
   (C2_graceful_failure xorBC [3] ("deadbeef".data)).2.2.2⟩

/-- C2 counterexample: a blob genuinely produced by `encryptData` under the
key `[0]`, decrypted under the different key `[1]`, yields a nonempty garbled
plaintext instead of null — the CBC pipeline has no integrity check, so a
wrong key is not detected whenever the bytes happen to unpad to nonempty valid
UTF-8; and a blob whose nonce part is a single byte (wrong length) is not
rejected either. -/
theorem C2_counterexample :
    ([0] : Bytes) ≠ [1] ∧
    encryptData xorBC (List.replicate 16 0) (List.replicate 15 65) [0] =
      .ok ("00000000000000000000000000000000:QUFBQUFBQUFBQUFBQUFBAQ==".data) ∧
    decryptData xorBC ("00000000000000000000000000000000:QUFBQUFBQUFBQUFBQUFBAQ==".data) [1] =
      some (List.replicate 15 64 ++ [0]) ∧
    (List.replicate 15 64 ++ [0] : Bytes) ≠ List.replicate 15 65 ∧
    decryptData xorBC ("00:QUFBQUFBQUFBQUFBQUFBAQ==".data) [0] =
      some (List.replicate 15 65) :=
  ⟨by decide, rfl, by decide, by decide, by decide⟩

/-- C6 (amended): the key-derivation wrapper performs no input validation and
never fails: for every PBKDF2 primitive, password and salt — including the
empty password and a salt that is not 16 bytes — it deterministically returns
the primitive's output as a success value. -/
theorem C6_deriveKey_total (pbkdf2 : String → Bytes → Bytes) (password : String)
    (salt : Bytes) :
    deriveKey pbkdf2 password salt = .ok (pbkdf2 password salt) := rfl

/-- C6 counterexample: with the empty password, and likewise with a 3-byte
salt, `deriveKey` succeeds with a derived key instead of failing with an
invalid-input error — the claimed validation does not exist in the code. -/
theorem C6_counterexample :
    deriveKey toyKdf "" (List.range 16) =
      .ok [0, 1, 2, 3, 4, 5, 6, 7, 8, 9, 10, 11, 12, 13, 14, 15] ∧
    deriveKey toyKdf "pw" [1, 2, 3] = .ok [112, 119, 1, 2, 3] :=
  ⟨rfl, rfl⟩

/-- C3 (amended): if the salt write fails, `setMasterPassword` fails with the
persistence error and the store is unchanged (state remains Unset); but if the
probe write fails after the salt write succeeded, the function throws with the
salt left persisted — a salt-without-probe state is reachable because the
source performs no rollback. -/
theorem C3_set_password_partial_write (e : AuthEnv) (password : String) (st : Store)
    (hp : password ≠ "") (hk : e.kdf password e.salt ≠ []) :
    (e.saltWriteFails = true →
      setMasterPassword e password st = (.error .storeSaltFailed, st)) ∧
    (e.saltWriteFails = false → e.testWriteFails = true →
      (setMasterPassword e password st).1 = .error .storeTestFailed ∧
      (setMasterPassword e password st).2 =
        { st with salt := some (base64Encode e.salt) }) := by
  constructor
  · intro hs
    rw [setMasterPassword, if_neg hp, if_pos hs]
  · intro hs ht
    rw [setMasterPassword, if_neg hp, if_neg (by rw [hs]; exact Bool.false_ne_true),
      if_neg hk, encryptData_ok e.cipher e.iv TEST_PLAIN_TEXT _ (by decide)]
    dsimp only []
    rw [if_pos ht]
    exact ⟨rfl, rfl⟩

/-- Witness for C3 at concrete environments with each write failing. -/
theorem C3_set_password_partial_write_witness :
    setMasterPassword ⟨toyKdf, xorBC, List.range 16, List.replicate 16 0, true, false⟩
      "pw" ⟨none, none⟩ = (.error .storeSaltFailed, ⟨none, none⟩) ∧
    ((setMasterPassword ⟨toyKdf, xorBC, List.range 16, List.replicate 16 0, false, true⟩
      "pw" ⟨none, none⟩).1 = .error .storeTestFailed ∧
    (setMasterPassword ⟨toyKdf, xorBC, List.range 16, List.replicate 16 0, false, true⟩
      "pw" ⟨none, none⟩).2 = ⟨some (base64Encode (List.range 16)), none⟩) :=
  ⟨(C3_set_password_partial_write ⟨toyKdf, xorBC, List.range 16, List.replicate 16 0,
      true, false⟩ "pw" ⟨none, none⟩ (by decide) (by decide)).1 rfl,
   (C3_set_password_partial_write ⟨toyKdf, xorBC, List.range 16, List.replicate 16 0,
      false, true⟩ "pw" ⟨none, none⟩ (by decide) (by decide)).2 rfl rfl⟩

/-- C3 counterexample: with the probe write failing after a successful salt
write, the persisted state is not Unset — the salt slot is populated (so
`hasMasterPassword` reports true) while no probe is stored. -/
theorem C3_counterexample :
    (setMasterPassword ⟨toyKdf, xorBC, List.range 16, List.replicate 16 0, false, true⟩
      "pw" ⟨none, none⟩).1 = .error .storeTestFailed ∧
    (setMasterPassword ⟨toyKdf, xorBC, List.range 16, List.replicate 16 0, false, true⟩
      "pw" ⟨none, none⟩).2.salt = some (base64Encode (List.range 16)) ∧
    hasMasterPassword (setMasterPassword ⟨toyKdf, xorBC, List.range 16,
      List.replicate 16 0, false, true⟩ "pw" ⟨none, none⟩).2 = true ∧
    (setMasterPassword ⟨toyKdf, xorBC, List.range 16, List.replicate 16 0, false, true⟩
      "pw" ⟨none, none⟩).2.testData = none :=
  ⟨rfl, rfl, rfl, rfl⟩

/-- C4 (amended): after a `setMasterPassword` that succeeded (salt and probe
persisted unchanged) whose probe ciphertext does not begin with the OpenSSL
`Salted__` magic, verifying with the same password returns exactly the key
that `setMasterPassword` returned; and verifying any password whose derived
key does not decrypt the stored probe to the known test plaintext (including
the empty password) returns null — `verifyMasterPassword` is a total
function, so it never throws on a wrong password. (Without the magic proviso
the first part is false in the code: if the randomly drawn probe IV makes the
ciphertext begin with `Salted__`, crypto-js strips it as a salt header and
even the correct password verifies to null; see the counterexample.) -/
theorem C4_verify_password (e : AuthEnv) (p : String) (st0 : Store) (key : Bytes)
    (st1 : Store) (hC : e.cipher.Sound) (hivlen : e.iv.length = 16)
    (hivok : ByteOk e.iv) (hsaltok : ByteOk e.salt)
    (hmagic : (cbcEnc e.cipher (e.kdf p e.salt) e.iv (pkcs7pad TEST_PLAIN_TEXT)).take 8 ≠
      saltedMagic)
    (hset : setMasterPassword e p st0 = (.ok key, st1)) :
    verifyMasterPassword e p st1 = some key ∧
    ∀ p2 : String,
      (p2 = "" ∨ decryptData e.cipher (st1.testData.getD [])
        (e.kdf p2 (base64Decode (st1.salt.getD []))) ≠ some TEST_PLAIN_TEXT) →
      verifyMasterPassword e p2 st1 = none := by
  rw [setMasterPassword] at hset
  by_cases hp : p = ""
  · rw [if_pos hp] at hset
    simp at hset
  · rw [if_neg hp] at hset
    by_cases hsw : e.saltWriteFails
    · rw [if_pos hsw] at hset
      simp at hset
    · rw [if_neg hsw] at hset
      by_cases hdk : e.kdf p e.salt = []
      · rw [if_pos hdk] at hset
        simp at hset
      · rw [if_neg hdk] at hset
        rw [encryptData_ok e.cipher e.iv TEST_PLAIN_TEXT _ (by decide)] at hset
        dsimp only [] at hset
        by_cases htw : e.testWriteFails
        · rw [if_pos htw] at hset
          simp at hset
        · rw [if_neg htw] at hset
          have hkey : key = e.kdf p e.salt := (Except.ok.inj (congrArg Prod.fst hset)).symm
          have hst1 : st1 = ⟨some (base64Encode e.salt),
              some (hexEncode e.iv ++ ':' :: base64Encode
                (cbcEnc e.cipher (e.kdf p e.salt) e.iv (pkcs7pad TEST_PLAIN_TEXT)))⟩ :=
            (congrArg Prod.snd hset).symm
          subst hst1
          subst hkey
          constructor
          · rw [verifyMasterPassword, if_neg hp]
            dsimp only []
            rw [base64Decode_base64Encode e.salt hsaltok,
              if_pos (decryptData_encryptData e.cipher hC e.iv TEST_PLAIN_TEXT
                (e.kdf p e.salt) hivlen hivok (by decide) (by decide) (by decide) hmagic)]
          · intro p2 hp2
            rw [verifyMasterPassword]
            by_cases hp2e : p2 = ""
            · rw [if_pos hp2e]
            · rw [if_neg hp2e]
              dsimp only []
              rcases hp2 with hp2 | hp2
              · exact absurd hp2 hp2e
              · simp only [Option.getD_some] at hp2
                rw [if_neg hp2]

/-- Witness for C4 at a concrete environment, password and store. -/
theorem C4_verify_password_witness :
    verifyMasterPassword ⟨toyKdf, xorBC, List.range 16, List.replicate 16 0, false, false⟩
      "pw" (setMasterPassword ⟨toyKdf, xorBC, List.range 16, List.replicate 16 0,
        false, false⟩ "pw" ⟨none, none⟩).2 = some (toyKdf "pw" (List.range 16)) ∧
    verifyMasterPassword ⟨toyKdf, xorBC, List.range 16, List.replicate 16 0, false, false⟩
      "bad" (setMasterPassword ⟨toyKdf, xorBC, List.range 16, List.replicate 16 0,
        false, false⟩ "pw" ⟨none, none⟩).2 = none :=
  ⟨(C4_verify_password ⟨toyKdf, xorBC, List.range 16, List.replicate 16 0, false, false⟩
      "pw" ⟨none, none⟩ (toyKdf "pw" (List.range 16)) _ xorBC_sound (by decide) (by decide)
      (by decide) (by decide) rfl).1,
   (C4_verify_password ⟨toyKdf, xorBC, List.range 16, List.replicate 16 0, false, false⟩
      "pw" ⟨none, none⟩ (toyKdf "pw" (List.range 16)) _ xorBC_sound (by decide) (by decide)
      (by decide) (by decide) rfl).2 "bad" (Or.inr (by decide))⟩

/-- C4 counterexample: a successful `setMasterPassword` whose randomly drawn
probe IV makes the probe ciphertext begin with the ASCII bytes `Salted__` —
crypto-js's OpenSSL-format parse then strips the whole single-block ciphertext
as a salt header, the probe fails to decrypt, and `verifyMasterPassword`
returns null for the very password that `setMasterPassword` just succeeded
with, refuting the claimed equivalence. -/
theorem C4_counterexample :
    (setMasterPassword ⟨fun _ _ => [0], xorBC, List.range 16,
      [16, 8, 28, 28, 0, 22, 17, 48, 0, 0, 0, 0, 0, 0, 0, 0], false, false⟩
      "pw" ⟨none, none⟩).1 = .ok [0] ∧
    (cbcEnc xorBC [0] [16, 8, 28, 28, 0, 22, 17, 48, 0, 0, 0, 0, 0, 0, 0, 0]
      (pkcs7pad TEST_PLAIN_TEXT)).take 8 = saltedMagic ∧
    verifyMasterPassword ⟨fun _ _ => [0], xorBC, List.range 16,
      [16, 8, 28, 28, 0, 22, 17, 48, 0, 0, 0, 0, 0, 0, 0, 0], false, false⟩
      "pw" (setMasterPassword ⟨fun _ _ => [0], xorBC, List.range 16,
        [16, 8, 28, 28, 0, 22, 17, 48, 0, 0, 0, 0, 0, 0, 0, 0], false, false⟩
        "pw" ⟨none, none⟩).2 = none :=
  ⟨rfl, by decide, rfl⟩

lemma lookup_filter_ne (id : String) (l : List (String × List Char)) :
    (l.filter (fun f => f.1 ≠ id)).lookup id = none := by
  induction l with
  | nil => rfl
  | cons hd r ih =>
    by_cases hh : hd.1 = id
    · simp only [List.filter_cons]
      rw [if_neg (by simp [hh])]
      exact ih
    · simp only [List.filter_cons]
      rw [if_pos (by simp [hh])]
      rw [List.lookup]
      have hne : (id == hd.1) = false := by
        simp [Ne.symm hh]
      rw [hne]
      exact ih

lemma filter_self_idem {α : Type} (p : α → Bool) (l : List α) :
    (l.filter p).filter p = l.filter p := by
  induction l with
  | nil => rfl
  | cons a r ih =>
    by_cases hp : p a = true
    · simp [List.filter_cons, hp, ih]
    · simp only [List.filter_cons]
      rw [if_neg hp, ih]

/-- C7: `getAllNoteMetadata` reads only the plaintext index (its result
depends on no key and on nothing but the index file): a missing or unparseable
index yields the empty list rather than an error, and a parsed index is
returned as a permutation of its entries sorted by timestamp descending
(most recent first). -/
theorem C7_list_all (fs : FileSystem) :
    ((fs.index = none ∨ fs.index = some none) → getAllNoteMetadata fs = []) ∧
    (∀ l, fs.index = some (some l) →
      (getAllNoteMetadata fs).Perm l ∧ List.Sorted tsDesc (getAllNoteMetadata fs)) ∧
    (∀ fs2 : FileSystem, fs.index = fs2.index →
      getAllNoteMetadata fs = getAllNoteMetadata fs2) := by
  obtain ⟨files, idx⟩ := fs
  refine ⟨?_, ?_, ?_⟩
  · rintro (h | h) <;> (rw [show (FileSystem.mk files idx).index = idx from rfl] at h) <;>
      subst h <;> rfl
  · intro l h
    rw [show (FileSystem.mk files idx).index = idx from rfl] at h
    subst h
    exact ⟨List.perm_insertionSort tsDesc l, List.sorted_insertionSort tsDesc l⟩
  · intro fs2 h
    obtain ⟨files2, idx2⟩ := fs2
    rw [show (FileSystem.mk files idx).index = idx from rfl,
      show (FileSystem.mk files2 idx2).index = idx2 from rfl] at h
    subst h
    rfl

/-- Witness for C7: three entries with timestamps 1 < 2 < 3 come back as a
sorted-descending permutation, and a missing index gives the empty list. -/
theorem C7_list_all_witness :
    (getAllNoteMetadata ⟨[], some (some [⟨"a", 1⟩, ⟨"c", 3⟩, ⟨"b", 2⟩])⟩).Perm
      [⟨"a", 1⟩, ⟨"c", 3⟩, ⟨"b", 2⟩] ∧
    List.Sorted tsDesc (getAllNoteMetadata ⟨[], some (some [⟨"a", 1⟩, ⟨"c", 3⟩, ⟨"b", 2⟩])⟩) ∧
    getAllNoteMetadata ⟨[], none⟩ = [] :=
  ⟨((C7_list_all ⟨[], some (some [⟨"a", 1⟩, ⟨"c", 3⟩, ⟨"b", 2⟩])⟩).2.1 _ rfl).1,
   ((C7_list_all ⟨[], some (some [⟨"a", 1⟩, ⟨"c", 3⟩, ⟨"b", 2⟩])⟩).2.1 _ rfl).2,
   (C7_list_all ⟨[], none⟩).1 (Or.inl rfl)⟩

/-- C8: `deleteNote` is total (it succeeds silently also when no blob exists
for the id) and idempotent, and once it completes, `loadNoteContent` for the
deleted id returns null and the listing no longer contains an entry with that
id. -/
theorem C8_delete_note (C : BlockCipher) (id : String) (key : Bytes) (fs : FileSystem) :
    loadNoteContent C id key (deleteNote id fs) = none ∧
    (∀ m ∈ getAllNoteMetadata (deleteNote id fs), m.id ≠ id) ∧
    deleteNote id (deleteNote id fs) = deleteNote id fs := by
  obtain ⟨files, idx⟩ := fs
  refine ⟨?_, ?_, ?_⟩
  · simp only [loadNoteContent, deleteNote]
    rw [lookup_filter_ne id files]
  · intro m hm
    have hm2 := (List.perm_insertionSort tsDesc _).mem_iff.mp hm
    have h3 := (List.mem_filter.mp hm2).2
    exact of_decide_eq_true h3
  · cases idx with
    | none => simp [deleteNote, filter_self_idem]
    | some o =>
      cases o with
      | none => simp [deleteNote, filter_self_idem]
      | some l => simp [deleteNote, filter_self_idem]

/-- C10: `deleteNote` rewrites the whole index file: a parsed index list is
replaced by the same list with exactly the entries for the given id removed;
a missing or unparseable index is rewritten as the empty list, discarding the
index entries of every other note still on disk. -/
theorem C10_delete_rewrites_index (id : String) (fs : FileSystem) :
    (∀ l, fs.index = some (some l) →
      (deleteNote id fs).index = some (some (l.filter (fun m => m.id ≠ id)))) ∧
    ((fs.index = none ∨ fs.index = some none) → (deleteNote id fs).index = some (some [])) := by
  obtain ⟨files, idx⟩ := fs
  constructor
  · intro l h
    rw [show (FileSystem.mk files idx).index = idx from rfl] at h
    subst h
    rfl
  · rintro (h | h) <;> (rw [show (FileSystem.mk files idx).index = idx from rfl] at h) <;>
      subst h <;> rfl

/-- Witness for C10: a parsed two-entry index loses exactly the deleted id,
and a missing index is rewritten as the empty list. -/
theorem C10_delete_rewrites_index_witness :
    (deleteNote "a" ⟨[("a", [])], some (some [⟨"a", 1⟩, ⟨"b", 2⟩])⟩).index =
      some (some [⟨"b", 2⟩]) ∧
    (deleteNote "a" ⟨[("b", [])], none⟩).index = some (some []) :=
  ⟨(C10_delete_rewrites_index "a" ⟨[("a", [])], some (some [⟨"a", 1⟩, ⟨"b", 2⟩])⟩).1 _ rfl,
   (C10_delete_rewrites_index "a" ⟨[("b", [])], none⟩).2 (Or.inl rfl)⟩

/-- Witness for C8 at a concrete store holding one blob and two index entries. -/
theorem C8_delete_note_witness :
    loadNoteContent xorBC "a" [7]
      (deleteNote "a" ⟨[("a", ['x'])], some (some [⟨"a", 1⟩, ⟨"b", 2⟩])⟩) = none ∧
    (⟨"b", 2⟩ : StoredNoteMetadata).id ≠ "a" ∧
    deleteNote "a" (deleteNote "a" ⟨[("a", ['x'])], some (some [⟨"a", 1⟩, ⟨"b", 2⟩])⟩) =
      deleteNote "a" ⟨[("a", ['x'])], some (some [⟨"a", 1⟩, ⟨"b", 2⟩])⟩ :=
  ⟨(C8_delete_note xorBC "a" [7] ⟨[("a", ['x'])], some (some [⟨"a", 1⟩, ⟨"b", 2⟩])⟩).1,
   (C8_delete_note xorBC "a" [7] ⟨[("a", ['x'])], some (some [⟨"a", 1⟩, ⟨"b", 2⟩])⟩).2.1
     ⟨"b", 2⟩ (by decide),
   (C8_delete_note xorBC "a" [7] ⟨[("a", ['x'])], some (some [⟨"a", 1⟩, ⟨"b", 2⟩])⟩).2.2⟩
